import Mathlib

/-!
Verification of the actuarial multi-state annuity core: the per-age generator
matrix `U`, the transition matrix `P = exp U`, and the recursive annuity
valuation `annuities`.  The embedding follows the notebook source: `annuities`
takes a starting age, a discount specification (a scalar factor or an explicit
numpy weight array), a transition-matrix-producing function and a horizon, and
accumulates `a := a + weight k • Pk` where `Pk` is updated with numpy's `*`
on arrays, which is the elementwise (Hadamard) product.  Fallible paths of the
source (numpy `IndexError` when the weight array is indexed out of range) are
modelled by an `Option` result: `none` is an uncaught indexing error, `some`
is a normal return.
-/

namespace ActMath

/-- Elementwise product of square matrices: numpy's `*` on two `np.ndarray`s,
as used by `annuities` in the source (`Pk = P( x + k ) * Pk`). -/
def emul {d : ℕ} {α : Type} [Mul α] (A B : Matrix (Fin d) (Fin d) α) :
    Matrix (Fin d) (Fin d) α :=
  Matrix.of fun i j => A i j * B i j

/-- The discounted-cashflow argument `v` of `annuities`: the source branches on
`isinstance( v, np.ndarray )`, so `v` is either a scalar discount factor or an
explicit per-duration weight array. -/
inductive DiscountSpec (α : Type) where
  | scalar (v : α)
  | seq (w : List α)

/-- The durations visited by the source's loop `for k in range( 1, n + 1 )`,
for an integer horizon `n` (empty when `n ≤ 0`). -/
def durations (n : ℤ) : List ℕ :=
  (List.range n.toNat).map (· + 1)

/-- The loop body of the scalar-discount branch of `annuities`: for each
duration `k`, `Pk = P( x + k ) * Pk` (elementwise) and `a = a + ( v**k ) * Pk`;
the state is the pair `(Pk, a)`. -/
def scalarLoop {d : ℕ} {α : Type} [CommRing α] (Pfn : ℤ → Matrix (Fin d) (Fin d) α)
    (x : ℤ) (v : α) :
    List ℕ → Matrix (Fin d) (Fin d) α × Matrix (Fin d) (Fin d) α →
      Matrix (Fin d) (Fin d) α × Matrix (Fin d) (Fin d) α
  | [], st => st
  | k :: ks, st =>
    let Pk := emul (Pfn (x + k)) st.1
    scalarLoop Pfn x v ks (Pk, st.2 + v ^ k • Pk)

/-- The loop body of the array branch of `annuities`: for each duration `k`,
`Pk = P( x + k ) * Pk` (elementwise) and `a = a + v[k] * Pk`; indexing `v[k]`
out of range raises numpy's `IndexError`, modelled by `none`. -/
def seqLoop {d : ℕ} {α : Type} [CommRing α] (Pfn : ℤ → Matrix (Fin d) (Fin d) α)
    (x : ℤ) (w : List α) :
    List ℕ → Matrix (Fin d) (Fin d) α × Matrix (Fin d) (Fin d) α →
      Option (Matrix (Fin d) (Fin d) α × Matrix (Fin d) (Fin d) α)
  | [], st => some st
  | k :: ks, st =>
    let Pk := emul (Pfn (x + k)) st.1
    match w[k]? with
    | none => none
    | some wk => seqLoop Pfn x w ks (Pk, st.2 + wk • Pk)

/-- The source's `annuities( x, v, P, n )`: initialize `Pk = P( x )` and
`a = np.eye( d )`; in the array branch first `a = v[0] * a`, then, only when
`v.size > 1`, run the duration loop; in the scalar branch always run the
duration loop.  `none` models an uncaught numpy `IndexError`. -/
def annuities {d : ℕ} {α : Type} [CommRing α] (x : ℤ) (v : DiscountSpec α)
    (Pfn : ℤ → Matrix (Fin d) (Fin d) α) (n : ℤ) :
    Option (Matrix (Fin d) (Fin d) α) :=
  let Pk := Pfn x
  let a : Matrix (Fin d) (Fin d) α := 1
  match v with
  | .seq w =>
    match w[0]? with
    | none => none
    | some w0 =>
      if 1 < w.length then
        (seqLoop Pfn x w (durations n) (Pk, w0 • a)).map Prod.snd
      else
        some (w0 • a)
  | .scalar vs => some (scalarLoop Pfn x vs (durations n) (Pk, a)).2

/-- Modelled from the spec: the `k`-step chronological product of one-step
transition matrices referenced by the spec's refinement property ("Update
`Pk := transitionMatrixFn(startAge + k) × Pk` — matrix product, new transition
matrix applied on the left"), i.e. `P(x+k) ⬝ ⋯ ⬝ P(x+1) ⬝ P(x)` as a true
matrix product.  No such direct-summation routine exists in the source; it is
the comparison point the spec demands. -/
def chronProd {d : ℕ} {α : Type} [CommRing α] (Pfn : ℤ → Matrix (Fin d) (Fin d) α)
    (x : ℤ) : ℕ → Matrix (Fin d) (Fin d) α
  | 0 => Pfn x
  | k + 1 => Pfn (x + (k + 1 : ℕ)) * chronProd Pfn x k

/-- Modelled from the spec: the naive direct-summation annuity value for a
scalar discount factor, `weight(0) • I + ∑ k = 1..n, v^k • (k-step chronological
matrix product)`, against which the spec says the recursive implementation must
agree. -/
def naiveAnnuities {d : ℕ} {α : Type} [CommRing α] (x : ℤ) (v : α)
    (Pfn : ℤ → Matrix (Fin d) (Fin d) α) (n : ℤ) : Matrix (Fin d) (Fin d) α :=
  1 + ((durations n).map fun k => v ^ k • chronProd Pfn x k).sum

/-- The explicit weight sequence `seq[k] = v^k`, `k = 0..n`, that the spec's
equivalence-of-discount-representations property compares against the scalar
discount factor `v` (the notebook builds it as
`np.array( [ 1/1.04**k for k in range( 0, 21 ) ] )`). -/
def geomSeq {α : Type} [Monoid α] (v : α) (n : ℕ) : List α :=
  (List.range (n + 1)).map fun k => v ^ k

/-- A concrete right-stochastic 4×4 transition matrix over `ℚ` with the
state-topology of the model (upper triangular, absorbing last state), used as
a concrete transition-matrix function for counterexamples. -/
def Qex : Matrix (Fin 4) (Fin 4) ℚ :=
  Matrix.of
    ![![1/2, 1/4, 1/8, 1/8],
      ![0, 1/2, 0, 1/2],
      ![0, 0, 1/2, 1/2],
      ![0, 0, 0, 1]]

/-- The source's generator (force-of-transition) matrix `U( x )`: with
`A = 0.001`, `B = 0.0004`, `c = 1.07`, rates `u01 = 0.001 * x`, `u02 = 0.01`,
`u03 = A + B * c**x`, `u00 = -( u01 + u02 + u03 )`, the matrix
`[[u00, u01, u02, u03], [0, -u03, 0, u03], [0, 0, -u03, u03], [0, 0, 0, 0]]`. -/
noncomputable def U (x : ℝ) : Matrix (Fin 4) (Fin 4) ℝ :=
  let A : ℝ := 0.001
  let B : ℝ := 0.0004
  let c : ℝ := 1.07
  let u01 : ℝ := 0.001 * x
  let u02 : ℝ := 0.01
  let u03 : ℝ := A + B * c ^ x
  let u00 : ℝ := -(u01 + u02 + u03)
  Matrix.of
    ![![u00, u01, u02, u03],
      ![0, -u03, 0, u03],
      ![0, 0, -u03, u03],
      ![0, 0, 0, 0]]

/-- The source's transition matrix `P( x ) = linalg.expm( U( x ) )`; the
library primitive `scipy.linalg.expm` is modelled by its mathematical
semantics, the matrix exponential `exp(U) = ∑ U^k / k!`. -/
noncomputable def P (x : ℝ) : Matrix (Fin 4) (Fin 4) ℝ :=
  NormedSpace.exp ℝ (U x)

variable {d : ℕ} {α : Type}

lemma durations_of_nonpos {n : ℤ} (hn : n ≤ 0) : durations n = [] := by
  simp [durations, Int.toNat_of_nonpos hn]

lemma mem_durations {k : ℕ} {n : ℤ} (h1 : 1 ≤ k) (h2 : (k : ℤ) ≤ n) :
    k ∈ durations n := by
  simp only [durations, List.mem_map, List.mem_range]
  refine ⟨k - 1, ?_, ?_⟩ <;> omega

lemma le_of_mem_durations {k : ℕ} {n : ℤ} (hk : k ∈ durations n) : (k : ℤ) ≤ n := by
  simp only [durations, List.mem_map, List.mem_range] at hk
  obtain ⟨i, hi, rfl⟩ := hk
  omega

/-- Running the array-branch loop over durations that go past the end of the
weight array yields `none` (the uncaught `IndexError` of `v[k]`). -/
lemma seqLoop_eq_none [CommRing α] (Pfn : ℤ → Matrix (Fin d) (Fin d) α) (x : ℤ)
    (w : List α) (ks : List ℕ) (hex : ∃ k ∈ ks, w.length ≤ k) :
    ∀ st, seqLoop Pfn x w ks st = none := by
  induction ks with
  | nil => obtain ⟨k, hk, -⟩ := hex; cases hk
  | cons k ks ih =>
    intro st
    obtain ⟨k', hk', hlen⟩ := hex
    rcases List.mem_cons.mp hk' with rfl | hmem
    · have hw : w[k']? = none := List.getElem?_eq_none hlen
      simp [seqLoop, hw]
    · cases hw : w[k]? with
      | none => simp [seqLoop, hw]
      | some wk =>
        simp only [seqLoop, hw]
        exact ih ⟨k', hmem, hlen⟩ _

lemma geomSeq_getElem? [Monoid α] (v : α) (n k : ℕ) (hk : k ≤ n) :
    (geomSeq v n)[k]? = some (v ^ k) := by
  simp [geomSeq, List.getElem?_map, List.getElem?_range (Nat.lt_succ_of_le hk)]

/-- On durations bounded by `n`, the array-branch loop fed with the geometric
weight sequence `v^0, …, v^n` computes exactly the scalar-branch loop. -/
lemma seqLoop_geomSeq [CommRing α] (Pfn : ℤ → Matrix (Fin d) (Fin d) α) (x : ℤ)
    (v : α) (n : ℕ) (ks : List ℕ) (hks : ∀ k ∈ ks, k ≤ n) :
    ∀ st, seqLoop Pfn x (geomSeq v n) ks st = some (scalarLoop Pfn x v ks st) := by
  induction ks with
  | nil => intro st; rfl
  | cons k ks ih =>
    intro st
    have hk : k ≤ n := hks k (List.mem_cons_self k ks)
    simp only [seqLoop, scalarLoop, geomSeq_getElem? v n k hk]
    exact ih (fun k' h => hks k' (List.mem_cons_of_mem _ h)) _

/-- C1 (code bug): evaluated at the constant stochastic transition function
`Qex`, starting age 0, scalar discount 1 and horizon 1, the source's
`annuities` returns `I + Qex ∘ Qex` (elementwise product, numpy `*`), while
the spec's naive direct summation with true matrix products returns
`I + Qex ⬝ Qex`; the two disagree (entry (0,1) is 1/16 versus 1/4), so the
accumulator does not equal the naive direct summation. -/
theorem annuities_elementwise_ne_naive :
    annuities 0 (.scalar 1) (fun _ => Qex) 1 = some (1 + emul Qex Qex) ∧
    naiveAnnuities 0 1 (fun _ => Qex) 1 = 1 + Qex * Qex ∧
    annuities 0 (.scalar 1) (fun _ => Qex) 1 ≠ some (naiveAnnuities 0 1 (fun _ => Qex) 1) := by
  have hd : durations (1 : ℤ) = [1] := rfl
  have hL : annuities 0 (.scalar 1) (fun _ => Qex) 1 = some (1 + emul Qex Qex) := by
    simp [annuities, scalarLoop, hd]
  have hc : chronProd (fun _ => Qex) (0 : ℤ) 1 = Qex * Qex := rfl
  have hN : naiveAnnuities 0 1 (fun _ => Qex) 1 = 1 + Qex * Qex := by
    simp [naiveAnnuities, hd, hc]
  refine ⟨hL, hN, ?_⟩
  rw [hL, hN]
  intro h
  have h2 := Matrix.ext_iff.mpr (Option.some.inj h) 0 1
  norm_num [Matrix.add_apply, Matrix.one_apply, emul, Matrix.mul_apply, Fin.sum_univ_four,
    Qex, Matrix.cons_val_two, Matrix.cons_val_three, Matrix.vecHead, Matrix.vecTail] at h2

/-- C3 counterexample: at starting age 25, scalar discount `1/1.04` and
horizon `-1`, the source returns a value normally (the identity matrix, since
the duration loop body never runs) instead of signaling an `InvalidHorizon`
error: no error path for negative horizons exists in `annuities`. -/
theorem annuities_neg_horizon_counterexample :
    annuities 25 (.scalar (1 / (1.04 : ℚ))) (fun _ => Qex) (-1) = some 1 := by
  have hd : durations (-1 : ℤ) = [] := rfl
  simp [annuities, scalarLoop, hd]

/-- C3 amended: for every strictly negative horizon the valuation returns
normally with `weight(0) • Identity` (no `InvalidHorizon` error exists in the
code; the duration loop simply runs zero iterations), for the scalar variant
and for any nonempty explicit weight sequence. -/
theorem annuities_neg_horizon (x : ℤ) [CommRing α] (Pfn : ℤ → Matrix (Fin d) (Fin d) α)
    (n : ℤ) (hn : n < 0) (v w0 : α) (w : List α) :
    annuities x (.scalar v) Pfn n = some 1 ∧
    annuities x (.seq (w0 :: w)) Pfn n = some (w0 • 1) := by
  have hd := durations_of_nonpos hn.le
  constructor
  · simp [annuities, scalarLoop, hd]
  · rcases w with - | ⟨w1, w'⟩
    · simp [annuities, hd]
    · simp [annuities, seqLoop, hd]

/-- C3 amended, witness at a concrete input: horizon `-2`, age 3, scalar
discount 2 and weight sequence `[5, 7]`. -/
theorem annuities_neg_horizon_witness :
    (-2 : ℤ) < 0 ∧
      (annuities 3 (.scalar (2 : ℚ)) (fun _ => Qex) (-2) = some 1 ∧
        annuities 3 (.seq [(5 : ℚ), 7]) (fun _ => Qex) (-2) = some ((5 : ℚ) • 1)) :=
  ⟨by norm_num, annuities_neg_horizon 3 (fun _ => Qex) (-2) (by norm_num) 2 5 [7]⟩

/-- C10: for every horizon `n ≤ 0` (zero horizon included) the valuation
returns normally — no error is signaled — and the result is
`weight(0) • Identity`: `v^0 • I` for a scalar discount factor `v`, and
`w0 • I` for an explicit weight sequence with first entry `w0` (the duration
loop `for k in range(1, n+1)` executes zero iterations). -/
theorem annuities_nonpos_horizon (x : ℤ) [CommRing α] (Pfn : ℤ → Matrix (Fin d) (Fin d) α)
    (n : ℤ) (hn : n ≤ 0) (v w0 : α) (w : List α) :
    annuities x (.scalar v) Pfn n = some (v ^ (0 : ℕ) • 1) ∧
    annuities x (.seq (w0 :: w)) Pfn n = some (w0 • 1) := by
  have hd := durations_of_nonpos hn
  constructor
  · simp [annuities, scalarLoop, hd]
  · rcases w with - | ⟨w1, w'⟩
    · simp [annuities, hd]
    · simp [annuities, seqLoop, hd]

/-- C10 witness at a concrete input: horizon `0` and horizon-covering weight
sequence `[3, 4]` at age 7, scalar discount `1/2`. -/
theorem annuities_nonpos_horizon_witness :
    (0 : ℤ) ≤ 0 ∧
      (annuities 7 (.scalar (1 / 2 : ℚ)) (fun _ => Qex) 0 = some ((1 / 2 : ℚ) ^ (0 : ℕ) • 1) ∧
        annuities 7 (.seq [(3 : ℚ), 4]) (fun _ => Qex) 0 = some ((3 : ℚ) • 1)) :=
  ⟨le_refl 0, annuities_nonpos_horizon 7 (fun _ => Qex) 0 (le_refl 0) (1 / 2) 3 [4]⟩

/-- C5: at horizon `n = 0` the valuation returns `weight(0) • Identity`,
where `weight(0)` is `v^0 = 1` for a scalar discount factor `v` and the first
entry `w0` for an explicit weight sequence. -/
theorem annuities_zero_horizon (x : ℤ) [CommRing α] (Pfn : ℤ → Matrix (Fin d) (Fin d) α)
    (v w0 : α) (w : List α) :
    annuities x (.scalar v) Pfn 0 = some (v ^ (0 : ℕ) • 1) ∧
    annuities x (.seq (w0 :: w)) Pfn 0 = some (w0 • 1) := by
  have hd : durations (0 : ℤ) = [] := rfl
  constructor
  · simp [annuities, scalarLoop, hd]
  · rcases w with - | ⟨w1, w'⟩
    · simp [annuities, hd]
    · simp [annuities, seqLoop, hd]

/-- C9: with an explicit weight sequence of size exactly 1, the guard
`v.size > 1` fails, the accumulation loop is skipped entirely, and the result
is `seq[0] • Identity`, for every horizon `n` whatsoever. -/
theorem annuities_singleton_seq (x : ℤ) [CommRing α]
    (Pfn : ℤ → Matrix (Fin d) (Fin d) α) (w0 : α) (n : ℤ) :
    annuities x (.seq [w0]) Pfn n = some (w0 • 1) := by
  simp [annuities]

/-- C4 counterexample: a weight sequence of length 1 is strictly shorter than
`n + 1 = 2`, yet the call returns a value normally (`1 • I = I`) — no
`CashflowLengthMismatch` error is signaled and no precheck of the sequence
length against the horizon exists in `annuities`. -/
theorem annuities_short_seq_counterexample :
    annuities 30 (.seq [(1 : ℚ)]) (fun _ => Qex) 1 = some 1 := by
  simp [annuities]

/-- C4 amended: the code performs no fast length precheck. A weight sequence
of size 1 shorter than `n+1` returns `seq[0] • Identity` with no error at all
(see the C9 theorem), while a weight sequence of size `s` with `2 ≤ s ≤ n`
enters the accumulation loop and dies at duration `k = s` with numpy's
generic `IndexError` (modelled by `none`), after the first `s - 1` iterations
of matrix work. -/
theorem annuities_seq_too_short (x : ℤ) [CommRing α]
    (Pfn : ℤ → Matrix (Fin d) (Fin d) α) (w : List α) (n : ℤ)
    (h1 : 2 ≤ w.length) (h2 : (w.length : ℤ) ≤ n) :
    annuities x (.seq w) Pfn n = none := by
  rcases w with - | ⟨w0, w'⟩
  · simp at h1
  rcases w' with - | ⟨w1, w''⟩
  · simp at h1
  have hmem : (w0 :: w1 :: w'').length ∈ durations n := mem_durations (by simp) h2
  have hnone := seqLoop_eq_none Pfn x (w0 :: w1 :: w'') (durations n)
    ⟨(w0 :: w1 :: w'').length, hmem, le_refl _⟩
  simp [annuities, hnone]

/-- C4 amended, witness at a concrete input: sequence `[2, 3]` of length 2
with horizon 2 (so the sequence is shorter than `n + 1 = 3`): the valuation
ends in the modelled `IndexError`. -/
theorem annuities_seq_too_short_witness :
    2 ≤ [(2 : ℚ), 3].length ∧ ([(2 : ℚ), 3].length : ℤ) ≤ 2 ∧
      annuities 0 (.seq [(2 : ℚ), 3]) (fun _ => Qex) 2 = none :=
  ⟨by norm_num, by norm_num,
    annuities_seq_too_short 0 (fun _ => Qex) [2, 3] 2 (by norm_num) (by norm_num)⟩

/-- C6: the valuation with the explicit geometric weight sequence
`seq[k] = v^k`, `k = 0..n`, agrees exactly (hence within any tolerance) with
the valuation with the scalar discount factor `v`, for every starting age,
every transition function, every `v ∈ (0, 1]` and every horizon `n ≥ 0`. -/
theorem annuities_geomSeq_eq_scalar [LinearOrderedField α] (x : ℤ)
    (Pfn : ℤ → Matrix (Fin d) (Fin d) α) (v : α) (n : ℕ)
    (h1 : 0 < v) (h2 : v ≤ 1) :
    annuities x (.seq (geomSeq v n)) Pfn (n : ℤ) = annuities x (.scalar v) Pfn (n : ℤ) := by
  have h0 : (geomSeq v n)[0]? = some (v ^ (0 : ℕ)) := geomSeq_getElem? v n 0 (Nat.zero_le n)
  have hlen : (geomSeq v n).length = n + 1 := by simp [geomSeq]
  rcases Nat.eq_zero_or_pos n with rfl | hn
  · have hd : durations ((0 : ℕ) : ℤ) = [] := rfl
    simp [annuities, scalarLoop, h0, hlen, hd]
  · have hgt : 1 < (geomSeq v n).length := by omega
    have hloop := seqLoop_geomSeq Pfn x v n (durations (n : ℤ))
      (fun k hk => by exact_mod_cast le_of_mem_durations hk)
    simp [annuities, h0, hgt, hloop]

/-- C6 witness at a concrete input: age 25, `v = 1/2 ∈ (0, 1]`, horizon 2. -/
theorem annuities_geomSeq_eq_scalar_witness :
    (0 : ℚ) < 1 / 2 ∧ (1 / 2 : ℚ) ≤ 1 ∧
      annuities 25 (.seq (geomSeq (1 / 2 : ℚ) 2)) (fun _ => Qex) ((2 : ℕ) : ℤ) =
        annuities 25 (.scalar (1 / 2 : ℚ)) (fun _ => Qex) ((2 : ℕ) : ℤ) :=
  ⟨by norm_num, by norm_num,
    annuities_geomSeq_eq_scalar 25 (fun _ => Qex) (1 / 2) 2 (by norm_num) (by norm_num)⟩

section MatrixExp

variable {m : Type} [Fintype m] [DecidableEq m]

/-- The entry series of the matrix exponential:
`exp(A) i j = ∑ k, (A^k) i j / k!` as a `HasSum` statement. -/
lemma expEntry_hasSum (A : Matrix m m ℝ) (i j : m) :
    HasSum (fun k : ℕ => ((k.factorial : ℝ))⁻¹ * (A ^ k) i j)
      (NormedSpace.exp ℝ A i j) := by
  letI : SeminormedRing (Matrix m m ℝ) := Matrix.linftyOpSemiNormedRing
  letI : NormedRing (Matrix m m ℝ) := Matrix.linftyOpNormedRing
  letI : NormedAlgebra ℝ (Matrix m m ℝ) := Matrix.linftyOpNormedAlgebra
  have h := NormedSpace.exp_series_hasSum_exp' (𝕂 := ℝ) A
  have h2 : HasSum (fun k : ℕ => (fun i j => ((k.factorial : ℝ))⁻¹ • (A ^ k) i j : m → m → ℝ))
      (fun i j => NormedSpace.exp ℝ A i j) := h
  have h3 := Pi.hasSum.mp (Pi.hasSum.mp h2 i) j
  simpa [smul_eq_mul] using h3

lemma hasSum_finsetSum {ι β : Type} [AddCommMonoid β] [TopologicalSpace β]
    [ContinuousAdd β] {f : ι → ℕ → β} {a : ι → β} (s : Finset ι)
    (h : ∀ j ∈ s, HasSum (f j) (a j)) :
    HasSum (fun k => ∑ j ∈ s, f j k) (∑ j ∈ s, a j) := by
  classical
  induction s using Finset.induction_on with
  | empty => simpa using hasSum_zero
  | insert hnot ih =>
    rename_i b t
    simp only [Finset.sum_insert hnot]
    exact (h b (Finset.mem_insert_self b t)).add
      (ih fun j hj => h j (Finset.mem_insert_of_mem hj))

lemma pow_row_eq_zero (A : Matrix m m ℝ) (i : m) (h : ∀ j, A i j = 0) (k : ℕ) (j : m) :
    (A ^ (k + 1)) i j = 0 := by
  rw [pow_succ', Matrix.mul_apply]
  simp [h]

/-- A zero row of the generator is a fixed identity row of the exponential:
the only surviving series term is `A^0 = I`. -/
lemma exp_row_of_row_zero (A : Matrix m m ℝ) (i : m) (h : ∀ j, A i j = 0) (j : m) :
    NormedSpace.exp ℝ A i j = (1 : Matrix m m ℝ) i j := by
  have h1 := expEntry_hasSum A i j
  have h2 : HasSum (fun k : ℕ => ((k.factorial : ℝ))⁻¹ * (A ^ k) i j)
      (((Nat.factorial 0 : ℝ))⁻¹ * (A ^ 0) i j) := by
    apply hasSum_single 0
    intro k hk
    obtain ⟨k', rfl⟩ := Nat.exists_eq_succ_of_ne_zero hk
    rw [pow_row_eq_zero A i h k']
    ring
  have h3 := h1.unique h2
  simpa using h3

lemma pow_rowSum_eq_zero (A : Matrix m m ℝ) (h : ∀ i, ∑ j, A i j = 0) (i : m) (k : ℕ) :
    ∑ j, (A ^ (k + 1)) i j = 0 := by
  rw [pow_succ]
  simp only [Matrix.mul_apply]
  rw [Finset.sum_comm]
  simp only [← Finset.mul_sum]
  simp [h]

/-- Zero row sums of the generator give unit row sums of the exponential:
termwise, only the `k = 0` series term contributes to a row sum. -/
lemma exp_rowSum_eq_one (A : Matrix m m ℝ) (h : ∀ i, ∑ j, A i j = 0) (i : m) :
    ∑ j, NormedSpace.exp ℝ A i j = 1 := by
  have h1 : HasSum (fun k : ℕ => ∑ j, ((k.factorial : ℝ))⁻¹ * (A ^ k) i j)
      (∑ j, NormedSpace.exp ℝ A i j) :=
    hasSum_finsetSum Finset.univ fun j _ => expEntry_hasSum A i j
  have heq : (fun k : ℕ => ∑ j, ((k.factorial : ℝ))⁻¹ * (A ^ k) i j) =
      fun k : ℕ => if k = 0 then (1 : ℝ) else 0 := by
    funext k
    cases k with
    | zero => simp [Matrix.one_apply]
    | succ k' =>
      rw [← Finset.mul_sum, pow_rowSum_eq_zero A h i k']
      simp
  rw [heq] at h1
  exact h1.unique (hasSum_ite_eq 0 1)

lemma pow_entry_nonneg (A : Matrix m m ℝ) (h : ∀ i j, 0 ≤ A i j) (k : ℕ) :
    ∀ i j, 0 ≤ (A ^ k) i j := by
  induction k with
  | zero =>
    intro i j
    rcases eq_or_ne i j with rfl | hne
    · simp
    · simp [Matrix.one_apply_ne hne]
  | succ k' ih =>
    intro i j
    rw [pow_succ, Matrix.mul_apply]
    exact Finset.sum_nonneg fun l _ => mul_nonneg (ih i l) (h l j)

lemma exp_entry_nonneg_of_entries_nonneg (A : Matrix m m ℝ) (h : ∀ i j, 0 ≤ A i j)
    (i j : m) : 0 ≤ NormedSpace.exp ℝ A i j :=
  hasSum_le
    (fun k => mul_nonneg (inv_nonneg.2 (Nat.cast_nonneg _)) (pow_entry_nonneg A h k i j))
    hasSum_zero (expEntry_hasSum A i j)

lemma exp_smul_one (t : ℝ) :
    NormedSpace.exp ℝ (t • (1 : Matrix m m ℝ)) = Real.exp t • 1 := by
  letI : SeminormedRing (Matrix m m ℝ) := Matrix.linftyOpSemiNormedRing
  letI : NormedRing (Matrix m m ℝ) := Matrix.linftyOpNormedRing
  letI : NormedAlgebra ℝ (Matrix m m ℝ) := Matrix.linftyOpNormedAlgebra
  have h1 := NormedSpace.exp_series_hasSum_exp' (𝕂 := ℝ) (t • (1 : Matrix m m ℝ))
  have hr := NormedSpace.exp_series_hasSum_exp' (𝕂 := ℝ) t
  have hr2 := hr.smul_const (1 : Matrix m m ℝ)
  rw [← Real.exp_eq_exp_ℝ] at hr2
  have h2 : HasSum (fun k : ℕ => ((k.factorial : ℝ))⁻¹ • (t • (1 : Matrix m m ℝ)) ^ k)
      (Real.exp t • (1 : Matrix m m ℝ)) := by
    convert hr2 using 2 with k
    rw [smul_pow, one_pow, smul_smul, smul_eq_mul]
  exact h1.unique h2

/-- Entrywise nonnegativity of `exp A` for a Metzler matrix `A` (nonnegative
off-diagonal entries): shift by a large multiple of the identity to make all
entries nonnegative, exponentiate, and unshift by a positive scalar factor. -/
lemma exp_entry_nonneg (A : Matrix m m ℝ) (h : ∀ i j, i ≠ j → 0 ≤ A i j) (i j : m) :
    0 ≤ NormedSpace.exp ℝ A i j := by
  classical
  set t : ℝ := ∑ l, |A l l| with ht
  have hshift : ∀ i' j', 0 ≤ (A + t • (1 : Matrix m m ℝ)) i' j' := by
    intro i' j'
    rcases eq_or_ne i' j' with rfl | hne
    · have h1 : |A i' i'| ≤ t :=
        Finset.single_le_sum (f := fun l => |A l l|) (fun l _ => abs_nonneg _)
          (Finset.mem_univ i')
      have h2 := neg_abs_le (A i' i')
      simp only [Matrix.add_apply, Matrix.smul_apply, Matrix.one_apply_eq, smul_eq_mul,
        mul_one]
      linarith
    · have h3 := h i' j' hne
      simp only [Matrix.add_apply, Matrix.smul_apply, Matrix.one_apply_ne hne, smul_eq_mul,
        mul_zero, add_zero]
      exact h3
  have hsplit : A = (A + t • (1 : Matrix m m ℝ)) + (-t) • (1 : Matrix m m ℝ) := by
    rw [add_assoc, ← add_smul]
    simp
  have hcomm : Commute (A + t • (1 : Matrix m m ℝ)) ((-t) • (1 : Matrix m m ℝ)) :=
    (Commute.one_right _).smul_right (-t)
  have hexp : NormedSpace.exp ℝ A =
      NormedSpace.exp ℝ (A + t • (1 : Matrix m m ℝ)) *
        NormedSpace.exp ℝ ((-t) • (1 : Matrix m m ℝ)) := by
    conv_lhs => rw [hsplit]
    exact Matrix.exp_add_of_commute ℝ _ _ hcomm
  rw [hexp, exp_smul_one, Matrix.mul_smul, Matrix.mul_one, Matrix.smul_apply, smul_eq_mul]
  exact mul_nonneg (Real.exp_pos _).le (exp_entry_nonneg_of_entries_nonneg _ hshift i j)

lemma exp_entry_le_one (A : Matrix m m ℝ) (hrow : ∀ i, ∑ j, A i j = 0)
    (hoff : ∀ i j, i ≠ j → 0 ≤ A i j) (i j : m) :
    NormedSpace.exp ℝ A i j ≤ 1 := by
  have h1 : NormedSpace.exp ℝ A i j ≤ ∑ j', NormedSpace.exp ℝ A i j' :=
    Finset.single_le_sum (fun j' _ => exp_entry_nonneg A hoff i j') (Finset.mem_univ j)
  rwa [exp_rowSum_eq_one A hrow i] at h1

end MatrixExp

lemma U_rowSum (x : ℝ) (i : Fin 4) : ∑ j, U x i j = 0 := by
  fin_cases i <;>
    simp [U, Fin.sum_univ_four, Matrix.cons_val_zero, Matrix.cons_val_one,
      Matrix.cons_val_two, Matrix.cons_val_three, Matrix.vecHead, Matrix.vecTail] <;>
    ring

lemma U_row3 (x : ℝ) (j : Fin 4) : U x 3 j = 0 := by
  fin_cases j <;>
    simp [U, Matrix.cons_val_zero, Matrix.cons_val_one, Matrix.cons_val_two,
      Matrix.cons_val_three, Matrix.vecHead, Matrix.vecTail]

lemma U_offdiag_nonneg (x : ℝ) (hx : 0 ≤ x) (i j : Fin 4) (hne : i ≠ j) :
    0 ≤ U x i j := by
  have hx1 : (0 : ℝ) ≤ 0.001 * x := by positivity
  have hx3 : (0 : ℝ) ≤ 0.001 + 0.0004 * (1.07 : ℝ) ^ x := by positivity
  fin_cases i <;> fin_cases j <;>
    first
      | exact absurd rfl hne
      | simp [U, Matrix.cons_val_zero, Matrix.cons_val_one, Matrix.cons_val_two,
          Matrix.cons_val_three, Matrix.vecHead, Matrix.vecTail] <;>
        first
          | exact hx1
          | exact hx3
          | norm_num

/-- C8: for every age `x`, every row of the generator matrix `U(x)` sums to
exactly zero (hence certainly within `1e-10`) — the diagonal of each row is
the negated sum of that row's off-diagonal entries by construction — and the
absorbing state's row (index 3) is identically zero. -/
theorem U_row_invariants (x : ℝ) :
    (∀ i, ∑ j, U x i j = 0) ∧ (∀ i, |∑ j, U x i j| ≤ 1e-10) ∧
      (∀ j, U x 3 j = 0) := by
  refine ⟨U_rowSum x, fun i => ?_, U_row3 x⟩
  rw [U_rowSum x i]
  norm_num

/-- C7: for every age `x`, the absorbing state's row (index `d - 1 = 3`) of
the transition matrix `P(x) = exp(U(x))` is exactly the identity row
`(0, 0, 0, 1)`, with no tolerance: row 3 of `U(x)` is zero, so only the
`k = 0` term `I` of the exponential series survives in that row. -/
theorem P_absorbing_row (x : ℝ) :
    P x 3 0 = 0 ∧ P x 3 1 = 0 ∧ P x 3 2 = 0 ∧ P x 3 3 = 1 := by
  have h : ∀ j, P x 3 j = (1 : Matrix (Fin 4) (Fin 4) ℝ) 3 j := fun j =>
    exp_row_of_row_zero (U x) 3 (U_row3 x) j
  refine ⟨?_, ?_, ?_, ?_⟩ <;> rw [h] <;> simp [Matrix.one_apply]

/-- C2: for every age `x` in the supported domain `[0, 120]`, every row of the
transition matrix `P(x) = exp(U(x))` sums to exactly one (hence within the
claimed `1e-10`), and every entry of `P(x)` lies in `[0, 1]` exactly (hence
within the same tolerance): `U(x)` has zero row sums and, for `x ≥ 0`,
nonnegative off-diagonal entries, so its exponential is right-stochastic. -/
theorem P_stochastic (x : ℝ) (hx0 : 0 ≤ x) (hx1 : x ≤ 120) :
    (∀ i, ∑ j, P x i j = 1) ∧ (∀ i, |∑ j, P x i j - 1| ≤ 1e-10) ∧
      (∀ i j, 0 ≤ P x i j ∧ P x i j ≤ 1) := by
  have hsum : ∀ i, ∑ j, P x i j = 1 := fun i =>
    exp_rowSum_eq_one (U x) (U_rowSum x) i
  refine ⟨hsum, fun i => ?_, fun i j => ?_⟩
  · rw [hsum i]
    norm_num
  · exact ⟨exp_entry_nonneg (U x) (U_offdiag_nonneg x hx0) i j,
      exp_entry_le_one (U x) (U_rowSum x) (U_offdiag_nonneg x hx0) i j⟩

/-- C2 witness at the concrete age `x = 25` of the spec's reference scenario,
inside the supported domain `[0, 120]`. -/
theorem P_stochastic_witness :
    (0 : ℝ) ≤ 25 ∧ (25 : ℝ) ≤ 120 ∧
      ((∀ i, ∑ j, P 25 i j = 1) ∧ (∀ i, |∑ j, P 25 i j - 1| ≤ 1e-10) ∧
        (∀ i j, 0 ≤ P 25 i j ∧ P 25 i j ≤ 1)) :=
  ⟨by norm_num, by norm_num, P_stochastic 25 (by norm_num) (by norm_num)⟩

end ActMath
